import Mathlib

set_option maxHeartbeats 1600000

/-!
Verification development for the `gridfinity` fastener-label generator
(`src/labels/label_generator.py`).  The Python module is a pure
string-templating layer: a label-text normalizer, a filename sanitizer,
a section-path resolver, layout renderers for bolt/nut/washer specs,
and a batch expander.  Everything below is a shallow embedding of that
module: strings are `String`/`List Char`, `pathlib.Path` values are
lists of path segments, Python exceptions are `Except String`.

Modelling notes, fixed once here:
* Python's `\d` and `\s` regex classes (and `str.strip`) match Unicode
  digit/whitespace classes; the inputs of this program are ASCII apart
  from the glyphs `⁄` and `×`, so they are modelled by the ASCII digit
  test `Char.isDigit` and the six ASCII whitespace characters.
* `repr` of a Python string (used in error messages via `!r`) is
  modelled as wrapping in single quotes, which is exact for the
  identifier-like strings this program interpolates.
-/

/-- Models Python's regex class `\d` (ASCII fragment). -/
def pyIsDigit (c : Char) : Bool := c.isDigit

/-- Models Python's regex class `\s` and `str.strip` whitespace (ASCII fragment). -/
def pyIsSpace (c : Char) : Bool :=
  c = ' ' || c = '\t' || c = '\n' || c = '\r' || c = '\x0b' || c = '\x0c'

/-- Source constant `FRACTION_SLASH = "⁄"` (U+2044). -/
def FRACTION_SLASH : String := "⁄"

/-- The replacement text ` ⁄ ` that `re.sub` inserts between the two digit
runs (template `\1 ⁄ \2` of `normalize_label_text`). -/
def fracSep : List Char := [' ', '⁄', ' ']

/-- One match attempt of the compiled pattern
`(?<!\d)(\d+)\s*/\s*(\d+)(?!\d)` at a position whose character is `c`,
whose remaining input is `rest`, assuming the lookbehind already passed
and `pyIsDigit c = true`.  Returns `some (d1, d2, r5)` on success, where
`d1`/`d2` are the two captured digit runs and `r5` is the input after the
match; `none` when the pattern does not match here.  The greedy `\d+` and
`\s*` pieces never backtrack against the literal `/` and `\d`, so
`takeWhile`/`dropWhile` give the regex engine's behaviour exactly, and
the trailing `(?!\d)` holds automatically after a maximal digit run. -/
def tryFrac (c : Char) (rest : List Char) :
    Option (List Char × List Char × List Char) :=
  match (rest.dropWhile pyIsDigit).dropWhile pyIsSpace with
  | '/' :: r3 =>
    match r3.dropWhile pyIsSpace with
    | [] => none
    | d :: r4tail =>
      if pyIsDigit d then
        some (c :: rest.takeWhile pyIsDigit,
              (d :: r4tail).takeWhile pyIsDigit,
              (d :: r4tail).dropWhile pyIsDigit)
      else none
  | _ => none

/-- Fuelled scan of `re.sub` over the input: at each position, if the
previous character was not a digit (`prev = false`: negative lookbehind)
and the current character is a digit, attempt the fraction match; on
success emit `d1 ⁄ d2` and resume after the match, otherwise emit the
character and advance one position, recording whether it was a digit.
`fuel ≥ length` makes the fuel branch unreachable; the fuel only makes
the recursion structural so that concrete inputs evaluate by `decide`. -/
def subFAux : Nat → Bool → List Char → List Char
  | 0, _, s => s
  | _ + 1, _, [] => []
  | fuel + 1, prev, c :: rest =>
    if !prev && pyIsDigit c then
      match tryFrac c rest with
      | some (d1, d2, r5) => d1 ++ fracSep ++ d2 ++ subFAux fuel true r5
      | none => c :: subFAux fuel true rest
    else
      c :: subFAux fuel (pyIsDigit c) rest

/-- The `re.sub` scan with adequate fuel; `prev` says whether the
character before the current position is a digit. -/
def subF (prev : Bool) (s : List Char) : List Char :=
  subFAux s.length prev s

/-- Source `normalize_label_text`: replace each match of
`(?<!\d)(\d+)\s*/\s*(\d+)(?!\d)` with `\1 ⁄ \2`. -/
def normalize_label_text (s : String) : String :=
  ⟨subF false s.data⟩

/-- Character class `[A-Za-z0-9._-]` of `_safe_stem`'s first `re.sub`
(the characters it keeps). -/
def allowedChar (c : Char) : Bool :=
  ('A' ≤ c && c ≤ 'Z') || ('a' ≤ c && c ≤ 'z') || ('0' ≤ c && c ≤ '9') ||
    c = '.' || c = '_' || c = '-'

/-- Python `str.strip`-style trimming of characters satisfying `p` from
both ends of a character list. -/
def pyStripChars (p : Char → Bool) (s : List Char) : List Char :=
  (((s.dropWhile p).reverse).dropWhile p).reverse

/-- The `.replace("×", "x")` step of `_safe_stem` (single-character
replacement, hence a `map`). -/
def repTimesX (s : List Char) : List Char :=
  s.map fun c => if c = '×' then 'x' else c

/-- The `re.sub(r"[^A-Za-z0-9._-]+", "_", s)` step: each maximal run of
disallowed characters becomes one underscore.  `prevBad` records whether
the previous character was part of such a run (state-machine form of the
run replacement, structural so concrete inputs evaluate by `decide`). -/
def subDisAux (prevBad : Bool) : List Char → List Char
  | [] => []
  | c :: rest =>
    if allowedChar c then c :: subDisAux false rest
    else if prevBad then subDisAux true rest
    else '_' :: subDisAux true rest

/-- The `re.sub(r"_+", "_", s)` step: collapse each maximal run of
underscores to one underscore.  `prevU` records whether the previous
character was an underscore. -/
def collapseUAux (prevU : Bool) : List Char → List Char
  | [] => []
  | c :: rest =>
    if c = '_' then
      if prevU then collapseUAux true rest
      else '_' :: collapseUAux true rest
    else c :: collapseUAux false rest

/-- Underscore test of the `.strip("_")` stage of `_safe_stem`. -/
def isU (c : Char) : Bool := c = '_'

/-- Source `_safe_stem` on character lists:
`s.strip()`, `.replace("×","x")`, disallowed-run substitution,
underscore collapsing, `.strip("_")`, and the `or "label"` fallback. -/
def safeStemL (s : List Char) : List Char :=
  let s1 := repTimesX (pyStripChars pyIsSpace s)
  let s2 := collapseUAux false (subDisAux false s1)
  let s3 := pyStripChars isU s2
  if s3 = [] then "label".data else s3

/-- Source `_safe_stem`: make a filesystem-safe filename stem. -/
def _safe_stem (s : String) : String :=
  ⟨safeStemL s.data⟩

/-- Source `_norm_size_for_folder`: folder-friendly size string —
strip, lowercase, drop every `#`, drop all whitespace
(`re.sub(r"\s+", "", s)` with empty replacement deletes exactly the
whitespace characters). -/
def _norm_size_for_folder (size : String) : String :=
  ⟨(((pyStripChars pyIsSpace size.data).map Char.toLower).filter
      (fun c => c ≠ '#')).filter (fun c => !pyIsSpace c)⟩

/-- Source `default_section_dir`.  A `pathlib.Path` is modelled as its
list of segments; `/` appends a segment. -/
def default_section_dir (base_out : List String) (kind : String)
    (size : String) (lock : Bool) : List String :=
  let s := _norm_size_for_folder size
  if kind = "bolt" then base_out ++ [s ++ "_bolts"]
  else if kind = "nut" then base_out ++ [s ++ "_nuts"]
  else if kind = "washer" then
    base_out ++ [if lock then s ++ "_lockwashers" else s ++ "_washers"]
  else base_out ++ ["misc"]

/-- Source dataclass `BoltSpec` (field `partial_thread` is spelled
`partialThread` here). -/
structure BoltSpec where
  size : String
  length : String
  head_style : String
  drive : String
  tapping : Bool
  partialThread : Bool
  grade_or_material : Option String
deriving DecidableEq

/-- Source dataclass `NutSpec`. -/
structure NutSpec where
  size : String
  extra : String
deriving DecidableEq

/-- Source dataclass `WasherSpec`. -/
structure WasherSpec where
  size : String
  extra : String
  lock : Bool
deriving DecidableEq

/-- Python truthiness of an `Optional[str]`: `None` and `""` are falsy. -/
def pyTruthyOptStr : Option String → Bool
  | none => false
  | some g => !(g == "")

/-- Lowercase a string character by character (`str.lower`, ASCII
fragment). -/
def pyLower (s : String) : String :=
  ⟨s.data.map Char.toLower⟩

/-- Source `CullenectLayout.base`. -/
def cullenectBase : String := "cullenect"

/-- Source `CullenectLayout.bolt_label`: icon directive with the
modifier list `flipped`, then `tapping`/`partial` when set, then
head style and drive; layout marker; normalized size (re-normalized
together with the grade/material when that is truthy); newline; `×`
and the normalized length. -/
def bolt_label (b : BoltSpec) : String :=
  let args : List String :=
    ["flipped"] ++ (if b.tapping then ["tapping"] else []) ++
      (if b.partialThread then ["partial"] else []) ++ [b.head_style, b.drive]
  let icon := "\x7bcullbolt(" ++ String.intercalate "," args ++ ")\x7d"
  let top0 := normalize_label_text b.size
  let top :=
    if pyTruthyOptStr b.grade_or_material then
      normalize_label_text (top0 ++ " " ++ b.grade_or_material.getD "")
    else top0
  let length_text := normalize_label_text b.length
  icon ++ "\x7b1|1\x7d" ++ top ++ "\n×" ++ length_text

/-- Source `CullenectLayout.nut_label`. -/
def nut_label (n : NutSpec) : String :=
  "\x7b<\x7d\x7bnut\x7d\x7b1|2\x7d" ++ normalize_label_text n.size ++ "\n" ++
    normalize_label_text n.extra

/-- Source `CullenectLayout.washer_label`. -/
def washer_label (w : WasherSpec) : String :=
  let icon := if w.lock then "\x7blockwasher\x7d" else "\x7bwasher\x7d"
  "\x7b<\x7d" ++ icon ++ "\x7b1|2\x7d" ++ normalize_label_text w.size ++ "\n" ++
    normalize_label_text w.extra

/-- Source `CullenectLayout.bolt_filename`: the size is lowercased with
`#` dropped and `-` mapped to `_`; the length has `/`→`_`, inch quotes
dropped, `.`→`p`; the stem is assembled, sanitized, and the extension
appended. -/
def bolt_filename (b : BoltSpec) (ext : String) : String :=
  let size : List Char :=
    ((b.size.data.map Char.toLower).filter (fun c => c ≠ '#')).map
      fun c => if c = '-' then '_' else c
  let length : List Char :=
    ((b.length.data.map fun c => if c = '/' then '_' else c).filter
      (fun c => c ≠ '"')).map fun c => if c = '.' then 'p' else c
  let stem :=
    (⟨size⟩ : String) ++ "x" ++ (⟨length⟩ : String) ++ "_" ++ b.head_style ++
      "_" ++ b.drive ++
      (if b.tapping then "_tapping" else "") ++
      (if b.partialThread then "_" ++ "partial" else "") ++
      (if pyTruthyOptStr b.grade_or_material then
        "_" ++ pyLower (b.grade_or_material.getD "") else "")
  _safe_stem stem ++ ext

/-- Source `CullenectLayout.nut_filename`. -/
def nut_filename (n : NutSpec) (ext : String) : String :=
  let stem :=
    (⟨(n.size.data.map Char.toLower).filter (fun c => c ≠ '#')⟩ : String) ++
      "_nut" ++ (if n.extra ≠ "" then "_" ++ pyLower n.extra else "")
  _safe_stem stem ++ ext

/-- Source `CullenectLayout.washer_filename`. -/
def washer_filename (w : WasherSpec) (ext : String) : String :=
  let stem :=
    (⟨(w.size.data.map Char.toLower).filter (fun c => c ≠ '#')⟩ : String) ++
      "_" ++ (if w.lock then "lockwasher" else "washer") ++
      (if w.extra ≠ "" then "_" ++ pyLower w.extra else "")
  _safe_stem stem ++ ext

/-- Source dataclass `Bolts` (batch request). -/
structure Bolts where
  bolt_type : String
  size : String
  lengths : List String
  tapping : Bool
  partialThread : Bool
  grade_or_material : Option String
deriving DecidableEq

/-- Source dataclass `Nuts` (batch request). -/
structure Nuts where
  size : String
  extras : List String
deriving DecidableEq

/-- Source dataclass `Washers` (batch request). -/
structure Washers where
  size : String
  extras : List String
  lock : Bool
deriving DecidableEq

deriving instance DecidableEq for Except

/-- A runtime value handed to `FastenerBatchGenerator.expand`.  Python
accepts any object there; `other descr` models a value of any type
outside `BatchItem = Union[Bolts, Nuts, Washers]`, carrying its `repr`
text. -/
inductive PyItem where
  | bolts (b : Bolts)
  | nuts (n : Nuts)
  | washers (w : Washers)
  | other (descr : String)
deriving DecidableEq

/-- Source `BOLT_TYPES` registry as an association list (the dict's keys
are distinct, so lookup order is irrelevant). -/
def BOLT_TYPES : List (String × String × String) :=
  [("socket_hex", "socket", "hex"),
   ("pan_phillips", "pan", "phillips"),
   ("pan_torx", "pan", "torx"),
   ("csk_hex", "countersunk", "hex"),
   ("csk_torx", "countersunk", "torx"),
   ("csk_phillips", "countersunk", "phillips")]

/-- Dict membership test / subscript of `BOLT_TYPES`, fused. -/
def lookupBoltType (bt : String) : Option (String × String) :=
  BOLT_TYPES.lookup bt

/-- Python `repr` of a string (for the identifier-like strings this
program interpolates: no embedded quotes or escapes). -/
def pyRepr (s : String) : String := "'" ++ s ++ "'"

/-- One job of the expander: `(label text, output path)`. -/
abbrev Job := String × List String

/-- The job built in the `Bolts` arm of `expand` for one `BoltSpec`. -/
def boltJob (out_dir : List String) (ext : String) (spec : BoltSpec) : Job :=
  (bolt_label spec,
   default_section_dir out_dir "bolt" spec.size false ++ [bolt_filename spec ext])

/-- The job built in the `Nuts` arm of `expand` for one `NutSpec`. -/
def nutJob (out_dir : List String) (ext : String) (spec : NutSpec) : Job :=
  (nut_label spec,
   default_section_dir out_dir "nut" spec.size false ++ [nut_filename spec ext])

/-- The job built in the `Washers` arm of `expand` for one `WasherSpec`. -/
def washerJob (out_dir : List String) (ext : String) (spec : WasherSpec) : Job :=
  (washer_label spec,
   default_section_dir out_dir "washer" spec.size spec.lock ++
     [washer_filename spec ext])

/-- The `BoltSpec` derived in the loop body of the `Bolts` arm. -/
def boltSpecOf (it : Bolts) (hs dr L : String) : BoltSpec :=
  ⟨it.size, L, hs, dr, it.tapping, it.partialThread, it.grade_or_material⟩

/-- One iteration of `expand`'s `for item in items` loop: the jobs the
item contributes, or the exception it raises.  A raised Python
exception is an `Except.error` carrying the exception message. -/
def expandItem (out_dir : List String) (ext : String) :
    PyItem → Except String (List Job)
  | .bolts it =>
    match lookupBoltType it.bolt_type with
    | none =>
      .error ("Unknown bolt_type: " ++ pyRepr it.bolt_type ++
        ". Add it to BOLT_TYPES.")
    | some (hs, dr) =>
      .ok (it.lengths.map fun L => boltJob out_dir ext (boltSpecOf it hs dr L))
  | .nuts it =>
    .ok (it.extras.map fun e => nutJob out_dir ext ⟨it.size, e⟩)
  | .washers it =>
    .ok (it.extras.map fun e => washerJob out_dir ext ⟨it.size, e, it.lock⟩)
  | .other d => .error ("Unsupported item: " ++ d)

/-- Source `FastenerBatchGenerator.expand` (with the generator's
`out_dir`/`ext` configuration as parameters; layout and section-dir
function are the defaults the source constructs).  An exception raised
while processing any item aborts the whole call, discarding jobs
accumulated from earlier items. -/
def expand (out_dir : List String) (ext : String) :
    List PyItem → Except String (List Job)
  | [] => .ok []
  | it :: rest =>
    match expandItem out_dir ext it with
    | .error e => .error e
    | .ok js =>
      match expand out_dir ext rest with
      | .error e => .error e
      | .ok js' => .ok (js ++ js')

/-- Source `FastenerBatchGenerator.make`: run `expand` to completion,
then invoke the renderer once per job in order, returning the output
paths.  Only the fully-returned job list is iterated, so an expansion
error yields zero renderer invocations. -/
def make (out_dir : List String) (ext : String) (items : List PyItem) :
    Except String (List (List String)) :=
  match expand out_dir ext items with
  | .error e => .error e
  | .ok jobs => .ok (jobs.map Prod.snd)

/-- Number of `run_gflabel` subprocess invocations `make` performs:
one per job on success, none when `expand` raises. -/
def rendersPerformed (out_dir : List String) (ext : String)
    (items : List PyItem) : Nat :=
  match make out_dir ext items with
  | .error _ => 0
  | .ok outs => outs.length

/-- Number of jobs a batch request contributes on success:
`len(lengths)` for `Bolts`, `len(extras)` for `Nuts`/`Washers`. -/
def itemCount : PyItem → Nat
  | .bolts b => b.lengths.length
  | .nuts n => n.extras.length
  | .washers w => w.extras.length
  | .other _ => 0

/-- An item on which `expand` raises: a `Bolts` request whose
`bolt_type` is not registered, or a value outside the three variants. -/
def invalidItem : PyItem → Prop
  | .bolts b => lookupBoltType b.bolt_type = none
  | .nuts _ => False
  | .washers _ => False
  | .other _ => True

/-! Spec-side model of the label-text normalizer, written from the
spec's sentence: split the text into maximal digit runs, maximal
whitespace runs and single other characters; replace every maximal
digit-run/digit-run pair separated by a literal slash (whitespace
around the slash tolerated and collapsed) with
`left ⁄ right`; leave every other token unchanged.  Maximality of the
runs is exactly the sentence's "not preceded/followed by another
digit". -/

/-- A token of the spec-side reading: a maximal digit run, a maximal
whitespace run, a literal slash, or a single other character. -/
inductive LTok where
  | digits (d : List Char)
  | ws (w : List Char)
  | slash
  | sym (c : Char)
deriving DecidableEq

/-- The characters of a token. -/
def renderTok : LTok → List Char
  | .digits d => d
  | .ws w => w
  | .slash => ['/']
  | .sym c => [c]

/-- The characters of a token list. -/
def renderToks : List LTok → List Char
  | [] => []
  | t :: ts => renderTok t ++ renderToks ts

/-- Split a character list into maximal digit runs, maximal whitespace
runs, slashes and single other characters. -/
def tokenize : List Char → List LTok
  | [] => []
  | c :: rest =>
    if pyIsDigit c then
      .digits (c :: rest.takeWhile pyIsDigit) :: tokenize (rest.dropWhile pyIsDigit)
    else if pyIsSpace c then
      .ws (c :: rest.takeWhile pyIsSpace) :: tokenize (rest.dropWhile pyIsSpace)
    else if c = '/' then
      .slash :: tokenize rest
    else
      .sym c :: tokenize rest
termination_by s => s.length
decreasing_by
  all_goals simp only [List.length_cons]
  · exact Nat.lt_succ_of_le (List.Sublist.length_le (List.dropWhile_sublist pyIsDigit))
  · exact Nat.lt_succ_of_le (List.Sublist.length_le (List.dropWhile_sublist pyIsSpace))
  · omega
  · omega

/-- Spec-side normalization over tokens, following the spec sentence:
a maximal digit run, optionally whitespace, a literal slash, optionally
whitespace, and a second maximal digit run become
`left ⁄ right` (whitespace around the slash collapsed); every other
token passes through unchanged.  On the well-formed token lists
`tokenize` produces, run maximality is exactly the "not preceded / not
followed by another digit" condition. -/
def specToks : List LTok → List Char
  | [] => []
  | .digits d :: .slash :: .digits d2 :: ts => d ++ fracSep ++ d2 ++ specToks ts
  | .digits d :: .slash :: .ws _ :: .digits d2 :: ts =>
    d ++ fracSep ++ d2 ++ specToks ts
  | .digits d :: .ws _ :: .slash :: .digits d2 :: ts =>
    d ++ fracSep ++ d2 ++ specToks ts
  | .digits d :: .ws _ :: .slash :: .ws _ :: .digits d2 :: ts =>
    d ++ fracSep ++ d2 ++ specToks ts
  | .digits d :: ts => d ++ specToks ts
  | .ws w :: ts => w ++ specToks ts
  | .slash :: ts => '/' :: specToks ts
  | .sym c :: ts => c :: specToks ts

/-- Spec-side normalizer on strings. -/
def normSpec (s : String) : String :=
  ⟨specToks (tokenize s.data)⟩

/-- No leading digit-run token (digit runs are maximal). -/
def notDigitsFirst : List LTok → Prop
  | .digits _ :: _ => False
  | _ => True

/-- No leading whitespace-run token (whitespace runs are maximal). -/
def notWsFirst : List LTok → Prop
  | .ws _ :: _ => False
  | _ => True

/-- Well-formedness of a token list produced by `tokenize`: digit and
whitespace runs are nonempty, homogeneous and maximal (no two adjacent
runs of the same kind), and `sym` tokens hold neither digits, nor
whitespace, nor a slash. -/
def WFToks : List LTok → Prop
  | [] => True
  | .digits d :: ts =>
    d ≠ [] ∧ (∀ c ∈ d, pyIsDigit c = true) ∧ notDigitsFirst ts ∧ WFToks ts
  | .ws w :: ts =>
    w ≠ [] ∧ (∀ c ∈ w, pyIsSpace c = true) ∧ notWsFirst ts ∧ WFToks ts
  | .slash :: ts => WFToks ts
  | .sym c :: ts =>
    pyIsDigit c = false ∧ pyIsSpace c = false ∧ c ≠ '/' ∧ WFToks ts

/-! Helper lemmas about the filename sanitizer. -/

/-- No two adjacent underscores. -/
def NoUU (l : List Char) : Prop :=
  l.Chain' fun a b => ¬(a = '_' ∧ b = '_')

theorem space_not_allowed {c : Char} (h : pyIsSpace c = true) :
    allowedChar c = false := by
  simp only [pyIsSpace, Bool.or_eq_true, decide_eq_true_eq] at h
  rcases h with ((((h | h) | h) | h) | h) | h <;> subst h <;> decide

theorem allowed_not_space {c : Char} (h : allowedChar c = true) :
    pyIsSpace c = false := by
  cases hs : pyIsSpace c
  · rfl
  · rw [space_not_allowed hs] at h
    cases h

theorem allowed_not_times {c : Char} (h : allowedChar c = true) : c ≠ '×' := by
  intro he
  subst he
  cases h

theorem dropWhile_eq_self_of_all {p : Char → Bool} {l : List Char}
    (h : ∀ c ∈ l, p c = false) : l.dropWhile p = l := by
  cases l with
  | nil => rfl
  | cons c rest =>
    have : p c = false := h c (List.mem_cons_self c rest)
    simp [List.dropWhile_cons, this]

theorem dropWhile_eq_self_of_head {p : Char → Bool} {l : List Char}
    (h : ∀ c ∈ l.head?, p c = false) : l.dropWhile p = l := by
  cases l with
  | nil => rfl
  | cons c rest =>
    have : p c = false := h c rfl
    simp [List.dropWhile_cons, this]

theorem head_dropWhile_false (p : Char → Bool) (l : List Char) :
    ∀ c ∈ (l.dropWhile p).head?, p c = false := by
  induction l with
  | nil => intro c h; cases h
  | cons a rest ih =>
    intro c h
    by_cases hp : p a
    · rw [List.dropWhile_cons_of_pos hp] at h
      exact ih c h
    · rw [List.dropWhile_cons_of_neg hp] at h
      cases h
      exact Bool.of_not_eq_true hp

theorem map_id_of_mem {f : Char → Char} {l : List Char}
    (h : ∀ c ∈ l, f c = c) : l.map f = l := by
  induction l with
  | nil => rfl
  | cons c rest ih =>
    simp only [List.map_cons]
    rw [h c (List.mem_cons_self c rest), ih fun d hd => h d (List.mem_cons_of_mem c hd)]

theorem subDisAux_mem_allowed :
    ∀ (l : List Char) (prevBad : Bool), ∀ c ∈ subDisAux prevBad l, allowedChar c = true := by
  intro l
  induction l with
  | nil => intro prevBad c h; cases h
  | cons a rest ih =>
    intro prevBad c h
    by_cases ha : allowedChar a
    · rw [subDisAux, if_pos ha] at h
      rcases List.mem_cons.1 h with rfl | h
      · exact ha
      · exact ih false c h
    · rw [subDisAux, if_neg ha] at h
      by_cases hb : prevBad
      · subst hb
        rw [if_pos rfl] at h
        exact ih true c h
      · have hb' : prevBad = false := Bool.of_not_eq_true hb
        subst hb'
        simp only [Bool.false_eq_true, if_false] at h
        rcases List.mem_cons.1 h with rfl | h
        · decide
        · exact ih true c h

theorem subDisAux_id {l : List Char} (h : ∀ c ∈ l, allowedChar c = true) :
    subDisAux false l = l := by
  induction l with
  | nil => rfl
  | cons a rest ih =>
    have ha := h a (List.mem_cons_self a rest)
    rw [subDisAux, if_pos ha, ih fun d hd => h d (List.mem_cons_of_mem a hd)]

theorem collapseUAux_mem_allowed {l : List Char}
    (h : ∀ c ∈ l, allowedChar c = true) :
    ∀ (prevU : Bool), ∀ c ∈ collapseUAux prevU l, allowedChar c = true := by
  induction l with
  | nil => intro prevU c hc; cases hc
  | cons a rest ih =>
    intro prevU c hc
    have hrest := fun d hd => h d (List.mem_cons_of_mem a hd)
    by_cases ha : a = '_'
    · subst ha
      rw [collapseUAux, if_pos rfl] at hc
      by_cases hp : prevU
      · subst hp
        rw [if_pos rfl] at hc
        exact ih hrest true c hc
      · have hp' : prevU = false := Bool.of_not_eq_true hp
        subst hp'
        simp only [Bool.false_eq_true, if_false] at hc
        rcases List.mem_cons.1 hc with rfl | hc
        · decide
        · exact ih hrest true c hc
    · rw [collapseUAux, if_neg ha] at hc
      rcases List.mem_cons.1 hc with rfl | hc
      · exact h c (List.mem_cons_self c rest)
      · exact ih hrest false c hc

theorem collapseUAux_head_ne :
    ∀ (l : List Char), ∀ c ∈ (collapseUAux true l).head?, c ≠ '_' := by
  intro l
  induction l with
  | nil => intro c hc; cases hc
  | cons a rest ih =>
    intro c hc
    by_cases ha : a = '_'
    · subst ha
      rw [collapseUAux, if_pos rfl, if_pos rfl] at hc
      exact ih c hc
    · rw [collapseUAux, if_neg ha] at hc
      cases hc
      exact ha

theorem collapseUAux_noUU : ∀ (l : List Char) (prevU : Bool), NoUU (collapseUAux prevU l) := by
  intro l
  induction l with
  | nil => intro prevU; exact List.chain'_nil
  | cons a rest ih =>
    intro prevU
    by_cases ha : a = '_'
    · subst ha
      by_cases hp : prevU
      · subst hp
        rw [collapseUAux, if_pos rfl, if_pos rfl]
        exact ih true
      · have hp' : prevU = false := Bool.of_not_eq_true hp
        subst hp'
        rw [collapseUAux, if_pos rfl]
        simp only [Bool.false_eq_true, if_false]
        refine List.chain'_cons'.2 ⟨?_, ih true⟩
        intro y hy h2
        exact collapseUAux_head_ne rest y hy h2.2
    · rw [collapseUAux, if_neg ha]
      refine List.chain'_cons'.2 ⟨?_, ih false⟩
      intro y hy h2
      exact ha h2.1

theorem collapseUAux_id :
    ∀ (l : List Char) (prevU : Bool), NoUU l →
      (prevU = true → ∀ c ∈ l.head?, c ≠ '_') → collapseUAux prevU l = l := by
  intro l
  induction l with
  | nil => intro prevU _ _; rfl
  | cons a rest ih =>
    intro prevU hno hhd
    by_cases ha : a = '_'
    · subst ha
      cases prevU with
      | true => exact absurd rfl (hhd rfl '_' rfl)
      | false =>
        rw [collapseUAux, if_pos rfl]
        simp only [Bool.false_eq_true, if_false]
        have htail : NoUU rest := (List.chain'_cons'.1 hno).2
        have hhd' : ∀ c ∈ rest.head?, c ≠ '_' := by
          intro c hc h2
          exact (List.chain'_cons'.1 hno).1 c hc ⟨rfl, h2⟩
        rw [ih true htail fun _ => hhd']
    · rw [collapseUAux, if_neg ha]
      rw [ih false (List.chain'_cons'.1 hno).2 (by intro h; cases h)]

theorem NoUU_reverse {l : List Char} (h : NoUU l) : NoUU l.reverse := by
  refine List.chain'_reverse.2 (h.imp ?_)
  intro a b hab h2
  exact hab ⟨h2.2, h2.1⟩

/-- The invariants every `safeStemL` result satisfies: all characters in
the kept class, no doubled underscore, no leading or trailing
underscore, nonempty. -/
theorem safeStemL_facts (s : List Char) :
    (∀ c ∈ safeStemL s, allowedChar c = true) ∧ NoUU (safeStemL s) ∧
      (safeStemL s).dropWhile isU = safeStemL s ∧
      (safeStemL s).reverse.dropWhile isU = (safeStemL s).reverse ∧
      safeStemL s ≠ [] := by
  unfold safeStemL
  by_cases h3 :
      pyStripChars isU (collapseUAux false (subDisAux false (repTimesX (pyStripChars pyIsSpace s)))) = []
  · rw [if_pos h3]
    refine ⟨by decide, ?_, by decide, by decide, by decide⟩
    show List.Chain' _ ['l', 'a', 'b', 'e', 'l']
    exact List.Chain'.cons (by decide) (List.Chain'.cons (by decide)
      (List.Chain'.cons (by decide) (List.Chain'.cons (by decide)
        (List.chain'_singleton 'l'))))
  · rw [if_neg h3]
    set s2 := collapseUAux false (subDisAux false (repTimesX (pyStripChars pyIsSpace s))) with hs2
    set u := s2.dropWhile isU with hu
    set v := u.reverse.dropWhile isU with hv
    have hs3 : pyStripChars isU s2 = v.reverse := rfl
    rw [hs3] at h3 ⊢
    have hvne : v ≠ [] := by
      intro hv0
      rw [hv0] at h3
      exact h3 rfl
    have hmem : ∀ c ∈ v.reverse, allowedChar c = true := by
      intro c hc
      have h1 : c ∈ v := List.mem_reverse.1 hc
      have h2 : c ∈ u.reverse := (List.dropWhile_suffix isU).subset h1
      have h2' : c ∈ u := List.mem_reverse.1 h2
      have h4 : c ∈ s2 := (List.dropWhile_suffix isU).subset h2'
      exact collapseUAux_mem_allowed
        (subDisAux_mem_allowed (repTimesX (pyStripChars pyIsSpace s)) false) false c h4
    have hnou : NoUU v.reverse := by
      have h1 : NoUU s2 := collapseUAux_noUU _ false
      have h2 : NoUU u := h1.suffix (List.dropWhile_suffix isU)
      have h4 : NoUU v := (NoUU_reverse h2).suffix (List.dropWhile_suffix isU)
      exact NoUU_reverse h4
    have hF4 : v.reverse.reverse.dropWhile isU = v.reverse.reverse := by
      rw [List.reverse_reverse]
      exact dropWhile_eq_self_of_head (head_dropWhile_false isU u.reverse)
    have hF3 : v.reverse.dropWhile isU = v.reverse := by
      refine dropWhile_eq_self_of_head ?_
      intro c hc
      rw [List.head?_reverse] at hc
      obtain ⟨t, ht⟩ := List.dropWhile_suffix (l := u.reverse) isU
      rw [← hv] at ht
      have hlast : v.getLast? = u.head? := by
        calc v.getLast? = (t ++ v).getLast? :=
              (List.getLast?_append_of_ne_nil t hvne).symm
          _ = u.reverse.getLast? := by rw [ht]
          _ = u.head? := List.getLast?_reverse u
      rw [hlast] at hc
      exact head_dropWhile_false isU s2 c hc
    exact ⟨hmem, hnou, hF3, hF4, h3⟩

/-- `safeStemL` is the identity on lists satisfying its output
invariants. -/
theorem safeStemL_id {r : List Char}
    (hmem : ∀ c ∈ r, allowedChar c = true) (hnou : NoUU r)
    (hF3 : r.dropWhile isU = r) (hF4 : r.reverse.dropWhile isU = r.reverse)
    (hne : r ≠ []) : safeStemL r = r := by
  have h1 : pyStripChars pyIsSpace r = r := by
    unfold pyStripChars
    rw [dropWhile_eq_self_of_all fun c hc => allowed_not_space (hmem c hc)]
    rw [dropWhile_eq_self_of_all fun c hc =>
      allowed_not_space (hmem c (List.mem_reverse.1 hc))]
    exact List.reverse_reverse r
  have h2 : repTimesX r = r := by
    refine map_id_of_mem ?_
    intro c hc
    exact if_neg (allowed_not_times (hmem c hc))
  have hsub : subDisAux false r = r := subDisAux_id hmem
  have hcol : collapseUAux false r = r :=
    collapseUAux_id r false hnou (by intro h; cases h)
  have h5 : pyStripChars isU r = r := by
    unfold pyStripChars
    rw [hF3, hF4, List.reverse_reverse]
  simp only [safeStemL]
  rw [h1, h2, hsub, hcol, h5, if_neg hne]

/-! Helper lemmas for the label-text normalizer equivalence. -/

theorem space_not_digit {c : Char} (h : pyIsSpace c = true) : pyIsDigit c = false := by
  simp only [pyIsSpace, Bool.or_eq_true, decide_eq_true_eq] at h
  rcases h with ((((h | h) | h) | h) | h) | h <;> subst h <;> decide

theorem digit_not_space {c : Char} (h : pyIsDigit c = true) : pyIsSpace c = false := by
  cases hs : pyIsSpace c
  · rfl
  · rw [space_not_digit hs] at h
    cases h

theorem digit_ne_slash {c : Char} (h : pyIsDigit c = true) : c ≠ '/' := by
  intro he
  subst he
  cases h

theorem slash_not_digit : pyIsDigit '/' = false := by decide

theorem slash_not_space : pyIsSpace '/' = false := by decide

theorem takeWhile_append_all {p : Char → Bool} :
    ∀ {l t : List Char}, (∀ c ∈ l, p c = true) → (∀ c ∈ t.head?, p c = false) →
      (l ++ t).takeWhile p = l := by
  intro l
  induction l with
  | nil =>
    intro t _ ht
    cases t with
    | nil => rfl
    | cons c r =>
      have : p c = false := ht c rfl
      simp [List.takeWhile_cons, this]
  | cons a l' ih =>
    intro t hl ht
    have ha : p a = true := hl a (List.mem_cons_self a l')
    simp only [List.cons_append, List.takeWhile_cons, ha, if_true]
    rw [ih (fun c hc => hl c (List.mem_cons_of_mem a hc)) ht]

theorem dropWhile_append_all {p : Char → Bool} :
    ∀ {l t : List Char}, (∀ c ∈ l, p c = true) → (∀ c ∈ t.head?, p c = false) →
      (l ++ t).dropWhile p = t := by
  intro l
  induction l with
  | nil =>
    intro t _ ht
    cases t with
    | nil => rfl
    | cons c r =>
      have : p c = false := ht c rfl
      simp [List.dropWhile_cons, this]
  | cons a l' ih =>
    intro t hl ht
    have ha : p a = true := hl a (List.mem_cons_self a l')
    simp only [List.cons_append, List.dropWhile_cons, ha, if_true]
    exact ih (fun c hc => hl c (List.mem_cons_of_mem a hc)) ht

theorem tryFrac_len {c : Char} {rest d1 d2 r5 : List Char}
    (h : tryFrac c rest = some (d1, d2, r5)) : r5.length ≤ rest.length := by
  unfold tryFrac at h
  split at h
  · rename_i r3 heq1
    split at h
    · cases h
    · rename_i d r4tail heq2
      split at h
      · injection h with h
        injection h with h1 h23
        injection h23 with h2 h3
        have a1 : ((rest.dropWhile pyIsDigit).dropWhile pyIsSpace).length ≤ rest.length :=
          le_trans (List.Sublist.length_le (List.dropWhile_sublist pyIsSpace))
            (List.Sublist.length_le (List.dropWhile_sublist pyIsDigit))
        rw [heq1] at a1
        have a2 : (r3.dropWhile pyIsSpace).length ≤ r3.length :=
          List.Sublist.length_le (List.dropWhile_sublist pyIsSpace)
        rw [heq2] at a2
        have a3 : ((d :: r4tail).dropWhile pyIsDigit).length ≤ (d :: r4tail).length :=
          List.Sublist.length_le (List.dropWhile_sublist pyIsDigit)
        rw [h3] at a3
        simp only [List.length_cons] at a1 a2 a3
        omega
      · cases h
  · cases h

theorem subFAux_eq_subF :
    ∀ (n : Nat) (p : Bool) (s : List Char), s.length ≤ n → subFAux n p s = subF p s := by
  intro n
  induction n using Nat.strong_induction_on with
  | _ n IH =>
    intro p s hlen
    cases s with
    | nil => cases n <;> rfl
    | cons c rest =>
      cases n with
      | zero => simp at hlen
      | succ n' =>
        have hr : rest.length ≤ n' := by
          simp only [List.length_cons] at hlen
          omega
        have hn' : n' < n' + 1 := Nat.lt_succ_self n'
        have hnr : rest.length < n' + 1 := Nat.lt_succ_of_le hr
        show subFAux (n' + 1) p (c :: rest) = subFAux (c :: rest).length p (c :: rest)
        simp only [List.length_cons]
        rw [subFAux, subFAux]
        split
        · cases htf : tryFrac c rest with
          | some trip =>
            obtain ⟨d1, d2, r5⟩ := trip
            dsimp only
            rw [IH n' hn' true r5 (le_trans (tryFrac_len htf) hr),
              IH rest.length hnr true r5 (tryFrac_len htf)]
          | none =>
            dsimp only
            rw [IH n' hn' true rest hr, IH rest.length hnr true rest (le_refl _)]
        · rw [IH n' hn' (pyIsDigit c) rest hr,
            IH rest.length hnr (pyIsDigit c) rest (le_refl _)]

theorem subF_cons (p : Bool) (c : Char) (rest : List Char) :
    subF p (c :: rest) =
      if !p && pyIsDigit c then
        match tryFrac c rest with
        | some (d1, d2, r5) => d1 ++ fracSep ++ d2 ++ subF true r5
        | none => c :: subF true rest
      else c :: subF (pyIsDigit c) rest := by
  show subFAux (c :: rest).length p (c :: rest) = _
  simp only [List.length_cons]
  rw [subFAux]
  split
  · cases htf : tryFrac c rest with
    | some trip =>
      obtain ⟨d1, d2, r5⟩ := trip
      dsimp only
      rw [subFAux_eq_subF rest.length true r5 (tryFrac_len htf)]
    | none =>
      dsimp only
      rfl
  · rfl

theorem subF_cons_not_digit {c : Char} (p : Bool) (t : List Char)
    (h : pyIsDigit c = false) : subF p (c :: t) = c :: subF false t := by
  rw [subF_cons, h]
  simp

theorem subF_append_digits {ds : List Char} (h : ∀ c ∈ ds, pyIsDigit c = true) :
    ∀ t, subF true (ds ++ t) = ds ++ subF true t := by
  induction ds with
  | nil => intro t; rfl
  | cons c ds' ih =>
    intro t
    have hc : pyIsDigit c = true := h c (List.mem_cons_self c ds')
    rw [List.cons_append, subF_cons]
    simp only [Bool.not_true, Bool.false_and, Bool.false_eq_true, if_false]
    rw [hc, ih (fun d hd => h d (List.mem_cons_of_mem c hd)) t, List.cons_append]

theorem subF_true_eq_false_of_head {t : List Char}
    (h : ∀ c ∈ t.head?, pyIsDigit c = false) : subF true t = subF false t := by
  cases t with
  | nil => rfl
  | cons c r =>
    have hc : pyIsDigit c = false := h c rfl
    rw [subF_cons_not_digit true r hc, subF_cons_not_digit false r hc]

theorem subF_append_not_digit {a : Char} {l' : List Char}
    (h : ∀ x ∈ a :: l', pyIsDigit x = false) :
    ∀ (p : Bool) (t : List Char), subF p ((a :: l') ++ t) = (a :: l') ++ subF false t := by
  induction l' generalizing a with
  | nil =>
    intro p t
    rw [List.cons_append, subF_cons_not_digit p _ (h a (List.mem_cons_self a [])),
      List.nil_append]
    rfl
  | cons b l'' ih =>
    intro p t
    rw [List.cons_append, subF_cons_not_digit p _ (h a (List.mem_cons_self a _))]
    rw [ih (fun x hx => h x (List.mem_cons_of_mem a hx)) false t]
    simp

theorem renderToks_cons (t : LTok) (ts : List LTok) :
    renderToks (t :: ts) = renderTok t ++ renderToks ts := rfl

theorem renderToks_head_not_digit :
    ∀ {ts : List LTok}, notDigitsFirst ts → WFToks ts →
      ∀ c ∈ (renderToks ts).head?, pyIsDigit c = false := by
  intro ts hnd hwf
  cases ts with
  | nil => intro c hc; cases hc
  | cons t ts' =>
    cases t with
    | digits d => cases hnd
    | ws w =>
      obtain ⟨hne, hall, _, _⟩ := hwf
      cases w with
      | nil => cases hne rfl
      | cons a w' =>
        intro c hc
        cases hc
        exact space_not_digit (hall a (List.mem_cons_self a w'))
    | slash =>
      intro c hc
      cases hc
      exact slash_not_digit
    | sym c' =>
      obtain ⟨hd, _, _, _⟩ := hwf
      intro c hc
      cases hc
      exact hd

theorem renderToks_head_not_space :
    ∀ {ts : List LTok}, notWsFirst ts → WFToks ts →
      ∀ c ∈ (renderToks ts).head?, pyIsSpace c = false := by
  intro ts hnw hwf
  cases ts with
  | nil => intro c hc; cases hc
  | cons t ts' =>
    cases t with
    | ws w => cases hnw
    | digits d =>
      obtain ⟨hne, hall, _, _⟩ := hwf
      cases d with
      | nil => cases hne rfl
      | cons a d' =>
        intro c hc
        cases hc
        exact digit_not_space (hall a (List.mem_cons_self a d'))
    | slash =>
      intro c hc
      cases hc
      exact slash_not_space
    | sym c' =>
      obtain ⟨_, hs, _, _⟩ := hwf
      intro c hc
      cases hc
      exact hs

theorem head_not_digit_ws_slash {w1 X : List Char}
    (hw1 : ∀ x ∈ w1, pyIsSpace x = true) :
    ∀ x ∈ (w1 ++ '/' :: X).head?, pyIsDigit x = false := by
  cases w1 with
  | nil =>
    intro x hx
    cases hx
    exact slash_not_digit
  | cons a w1' =>
    intro x hx
    cases hx
    exact space_not_digit (hw1 a (List.mem_cons_self a w1'))

theorem tryFrac_success {c : Char} {d' w1 w2 d2 r5 : List Char}
    (hd' : ∀ x ∈ d', pyIsDigit x = true) (hw1 : ∀ x ∈ w1, pyIsSpace x = true)
    (hw2 : ∀ x ∈ w2, pyIsSpace x = true) (hd2ne : d2 ≠ [])
    (hd2 : ∀ x ∈ d2, pyIsDigit x = true)
    (hr5 : ∀ x ∈ r5.head?, pyIsDigit x = false) :
    tryFrac c (d' ++ (w1 ++ '/' :: (w2 ++ (d2 ++ r5)))) = some (c :: d', d2, r5) := by
  have hdr : (d' ++ (w1 ++ '/' :: (w2 ++ (d2 ++ r5)))).dropWhile pyIsDigit =
      w1 ++ '/' :: (w2 ++ (d2 ++ r5)) :=
    dropWhile_append_all hd' (head_not_digit_ws_slash hw1)
  have htw : (d' ++ (w1 ++ '/' :: (w2 ++ (d2 ++ r5)))).takeWhile pyIsDigit = d' :=
    takeWhile_append_all hd' (head_not_digit_ws_slash hw1)
  have hds : (w1 ++ '/' :: (w2 ++ (d2 ++ r5))).dropWhile pyIsSpace =
      '/' :: (w2 ++ (d2 ++ r5)) := by
    refine dropWhile_append_all hw1 ?_
    intro x hx
    cases hx
    exact slash_not_space
  cases d2 with
  | nil => cases hd2ne rfl
  | cons e d2' =>
    have hhd : ∀ x ∈ ((e :: d2') ++ r5).head?, pyIsSpace x = false := by
      intro x hx
      cases hx
      exact digit_not_space (hd2 e (List.mem_cons_self e d2'))
    have hds2 : (w2 ++ ((e :: d2') ++ r5)).dropWhile pyIsSpace = (e :: d2') ++ r5 :=
      dropWhile_append_all hw2 hhd
    have htk2 : List.takeWhile pyIsDigit (e :: (d2' ++ r5)) = e :: d2' := by
      have h0 := takeWhile_append_all hd2 hr5
      simpa using h0
    have hdp2 : List.dropWhile pyIsDigit (e :: (d2' ++ r5)) = r5 := by
      have h0 := dropWhile_append_all hd2 hr5
      simpa using h0
    unfold tryFrac
    rw [hdr, hds]
    split
    · rename_i r3 heq
      injection heq with heq1 heq2
      subst heq2
      rw [hds2]
      simp only [List.cons_append]
      rw [hd2 e (List.mem_cons_self e d2')]
      simp only [if_true]
      rw [htk2, hdp2]
      have htw2 : List.takeWhile pyIsDigit (d' ++ (w1 ++ '/' :: (w2 ++ e :: (d2' ++ r5)))) = d' := by
        have h0 := htw
        simpa using h0
      rw [htw2]
    · rename_i hne
      exact absurd rfl (hne (w2 ++ (e :: d2' ++ r5)))

theorem tryFrac_none_no_slash {c : Char} {d' w1 X : List Char}
    (hd' : ∀ x ∈ d', pyIsDigit x = true) (hw1 : ∀ x ∈ w1, pyIsSpace x = true)
    (hhead1 : ∀ x ∈ (w1 ++ X).head?, pyIsDigit x = false)
    (hheadX : ∀ x ∈ X.head?, pyIsSpace x = false ∧ x ≠ '/') :
    tryFrac c (d' ++ (w1 ++ X)) = none := by
  have hdr : (d' ++ (w1 ++ X)).dropWhile pyIsDigit = w1 ++ X :=
    dropWhile_append_all hd' hhead1
  have hds : (w1 ++ X).dropWhile pyIsSpace = X :=
    dropWhile_append_all hw1 fun x hx => (hheadX x hx).1
  unfold tryFrac
  rw [hdr, hds]
  cases X with
  | nil => rfl
  | cons x X' =>
    split
    · rename_i r3 heq
      injection heq with heq1 heq2
      exact absurd heq1 (hheadX x rfl).2
    · rfl

theorem tryFrac_none_after_slash {c : Char} {d' w1 w2 Y : List Char}
    (hd' : ∀ x ∈ d', pyIsDigit x = true) (hw1 : ∀ x ∈ w1, pyIsSpace x = true)
    (hw2 : ∀ x ∈ w2, pyIsSpace x = true)
    (hY : ∀ x ∈ Y.head?, pyIsDigit x = false ∧ pyIsSpace x = false) :
    tryFrac c (d' ++ (w1 ++ '/' :: (w2 ++ Y))) = none := by
  have hdr : (d' ++ (w1 ++ '/' :: (w2 ++ Y))).dropWhile pyIsDigit =
      w1 ++ '/' :: (w2 ++ Y) :=
    dropWhile_append_all hd' (head_not_digit_ws_slash hw1)
  have hds : (w1 ++ '/' :: (w2 ++ Y)).dropWhile pyIsSpace = '/' :: (w2 ++ Y) := by
    refine dropWhile_append_all hw1 ?_
    intro x hx
    cases hx
    exact slash_not_space
  have hds2 : (w2 ++ Y).dropWhile pyIsSpace = Y :=
    dropWhile_append_all hw2 fun x hx => (hY x hx).2
  unfold tryFrac
  rw [hdr, hds]
  split
  · rename_i r3 heq
    injection heq with heq1 heq2
    subst heq2
    rw [hds2]
    cases Y with
    | nil => rfl
    | cons y Y' =>
      dsimp only
      rw [(hY y rfl).1]
      simp
  · rename_i hne
    exact absurd rfl (hne (w2 ++ Y))

theorem mem_takeWhile_true {p : Char → Bool} :
    ∀ {l : List Char} {a : Char}, a ∈ l.takeWhile p → p a = true := by
  intro l
  induction l with
  | nil => intro a h; cases h
  | cons c rest ih =>
    intro a h
    by_cases hc : p c
    · rw [List.takeWhile_cons_of_pos hc] at h
      rcases List.mem_cons.1 h with rfl | h
      · exact hc
      · exact ih h
    · rw [List.takeWhile_cons_of_neg hc] at h
      cases h

theorem tokenize_notDigitsFirst {s : List Char}
    (h : ∀ c ∈ s.head?, pyIsDigit c = false) : notDigitsFirst (tokenize s) := by
  cases s with
  | nil => rw [tokenize]; trivial
  | cons c rest =>
    have hc : pyIsDigit c = false := h c rfl
    rw [tokenize, hc]
    simp only [Bool.false_eq_true, if_false]
    by_cases hs : pyIsSpace c
    · simp only [hs, if_true]
      trivial
    · simp only [hs, Bool.false_eq_true, if_false]
      by_cases hsl : c = '/'
      · simp only [hsl, if_true]
        trivial
      · simp only [hsl, if_false]
        trivial

theorem tokenize_notWsFirst {s : List Char}
    (h : ∀ c ∈ s.head?, pyIsSpace c = false) : notWsFirst (tokenize s) := by
  cases s with
  | nil => rw [tokenize]; trivial
  | cons c rest =>
    have hc : pyIsSpace c = false := h c rfl
    rw [tokenize, hc]
    simp only [Bool.false_eq_true, if_false]
    by_cases hd : pyIsDigit c
    · simp only [hd, if_true]
      trivial
    · simp only [hd, Bool.false_eq_true, if_false]
      by_cases hsl : c = '/'
      · simp only [hsl, if_true]
        trivial
      · simp only [hsl, if_false]
        trivial

theorem tokenize_wf : ∀ (n : Nat) (s : List Char), s.length ≤ n → WFToks (tokenize s) := by
  intro n
  induction n with
  | zero =>
    intro s hlen
    have : s = [] := List.eq_nil_of_length_eq_zero (Nat.le_zero.1 hlen)
    subst this
    rw [tokenize]
    trivial
  | succ n ih =>
    intro s hlen
    cases s with
    | nil => rw [tokenize]; trivial
    | cons c rest =>
      have hr : rest.length ≤ n := by
        simp only [List.length_cons] at hlen
        omega
      by_cases hd : pyIsDigit c
      · rw [tokenize, if_pos hd]
        refine ⟨List.cons_ne_nil c _, ?_, ?_, ?_⟩
        · intro x hx
          rcases List.mem_cons.1 hx with rfl | hx
          · exact hd
          · exact mem_takeWhile_true hx
        · exact tokenize_notDigitsFirst (head_dropWhile_false pyIsDigit rest)
        · exact ih (rest.dropWhile pyIsDigit)
            (le_trans (List.Sublist.length_le (List.dropWhile_sublist pyIsDigit)) hr)
      · by_cases hs : pyIsSpace c
        · rw [tokenize, if_neg hd, if_pos hs]
          refine ⟨List.cons_ne_nil c _, ?_, ?_, ?_⟩
          · intro x hx
            rcases List.mem_cons.1 hx with rfl | hx
            · exact hs
            · exact mem_takeWhile_true hx
          · exact tokenize_notWsFirst (head_dropWhile_false pyIsSpace rest)
          · exact ih (rest.dropWhile pyIsSpace)
              (le_trans (List.Sublist.length_le (List.dropWhile_sublist pyIsSpace)) hr)
        · by_cases hsl : c = '/'
          · rw [tokenize, if_neg hd, if_neg hs, if_pos hsl]
            exact ih rest hr
          · rw [tokenize, if_neg hd, if_neg hs, if_neg hsl]
            exact ⟨Bool.of_not_eq_true hd, Bool.of_not_eq_true hs, hsl, ih rest hr⟩

theorem renderToks_tokenize : ∀ (n : Nat) (s : List Char), s.length ≤ n →
    renderToks (tokenize s) = s := by
  intro n
  induction n with
  | zero =>
    intro s hlen
    have : s = [] := List.eq_nil_of_length_eq_zero (Nat.le_zero.1 hlen)
    subst this
    rw [tokenize]
    rfl
  | succ n ih =>
    intro s hlen
    cases s with
    | nil => rw [tokenize]; rfl
    | cons c rest =>
      have hr : rest.length ≤ n := by
        simp only [List.length_cons] at hlen
        omega
      by_cases hd : pyIsDigit c
      · rw [tokenize, if_pos hd, renderToks_cons]
        rw [ih (rest.dropWhile pyIsDigit)
          (le_trans (List.Sublist.length_le (List.dropWhile_sublist pyIsDigit)) hr)]
        show (c :: rest.takeWhile pyIsDigit) ++ rest.dropWhile pyIsDigit = c :: rest
        rw [List.cons_append, List.takeWhile_append_dropWhile]
      · by_cases hs : pyIsSpace c
        · rw [tokenize, if_neg hd, if_pos hs, renderToks_cons]
          rw [ih (rest.dropWhile pyIsSpace)
            (le_trans (List.Sublist.length_le (List.dropWhile_sublist pyIsSpace)) hr)]
          show (c :: rest.takeWhile pyIsSpace) ++ rest.dropWhile pyIsSpace = c :: rest
          rw [List.cons_append, List.takeWhile_append_dropWhile]
        · by_cases hsl : c = '/'
          · rw [tokenize, if_neg hd, if_neg hs, if_pos hsl, renderToks_cons, ih rest hr]
            rw [hsl]
            rfl
          · rw [tokenize, if_neg hd, if_neg hs, if_neg hsl, renderToks_cons, ih rest hr]
            rfl

theorem subF_cons_digit_start {c : Char} (rest : List Char) (hc : pyIsDigit c = true) :
    subF false (c :: rest) =
      match tryFrac c rest with
      | some (d1, d2, r5) => d1 ++ fracSep ++ d2 ++ subF true r5
      | none => c :: subF true rest := by
  rw [subF_cons, hc]
  simp

set_option maxHeartbeats 1000000 in
theorem subF_renderToks : ∀ (n : Nat) (ts : List LTok), ts.length ≤ n → WFToks ts →
    subF false (renderToks ts) = specToks ts := by
  intro n
  induction n with
  | zero =>
    intro ts hlen _
    have : ts = [] := List.eq_nil_of_length_eq_zero (Nat.le_zero.1 hlen)
    subst this
    rfl
  | succ n ih =>
    intro ts hlen hwf
    cases ts with
    | nil => rfl
    | cons t ts1 =>
      have hlen1 : ts1.length ≤ n := by
        simp only [List.length_cons] at hlen
        omega
      cases t with
      | ws w =>
        obtain ⟨hwne, hwall, hnw, hwf1⟩ := hwf
        cases w with
        | nil => exact absurd rfl hwne
        | cons a w'' =>
          have hnotdig : ∀ x ∈ a :: w'', pyIsDigit x = false := fun x hx =>
            space_not_digit (hwall x hx)
          rw [renderToks_cons]
          dsimp only [renderTok]
          rw [subF_append_not_digit hnotdig false _, ih ts1 hlen1 hwf1]
          rfl
      | slash =>
        show subF false ('/' :: renderToks ts1) = specToks (.slash :: ts1)
        rw [subF_cons_not_digit false _ slash_not_digit, ih ts1 hlen1 hwf]
        rfl
      | sym c' =>
        obtain ⟨hd, hs, hsl, hwf1⟩ := hwf
        show subF false (c' :: renderToks ts1) = specToks (.sym c' :: ts1)
        rw [subF_cons_not_digit false _ hd, ih ts1 hlen1 hwf1]
        rfl
      | digits d =>
        obtain ⟨hdne, hdall, hnd1, hwf1⟩ := hwf
        cases d with
        | nil => exact absurd rfl hdne
        | cons c d' =>
          have hc : pyIsDigit c = true := hdall c (List.mem_cons_self c d')
          have hd' : ∀ x ∈ d', pyIsDigit x = true := fun x hx =>
            hdall x (List.mem_cons_of_mem c hx)
          have hhR1 : ∀ x ∈ (renderToks ts1).head?, pyIsDigit x = false :=
            renderToks_head_not_digit hnd1 hwf1
          have hIH : subF false (renderToks ts1) = specToks ts1 := ih ts1 hlen1 hwf1
          have hrt : renderToks (.digits (c :: d') :: ts1) = c :: (d' ++ renderToks ts1) := by
            simp [renderToks, renderTok]
          rw [hrt, subF_cons_digit_start _ hc]
          cases ts1 with
          | nil =>
            have htf : tryFrac c (d' ++ renderToks ([] : List LTok)) = none := by
              have h0 := @tryFrac_none_no_slash c d' [] [] hd'
                (by intro x hx; cases hx) (by intro x hx; cases hx)
                (by intro x hx; cases hx)
              simpa [renderToks] using h0
            rw [htf]
            rw [subF_append_digits hd', subF_true_eq_false_of_head hhR1, hIH]
            rfl
          | cons t2 ts2 =>
            cases t2 with
            | digits d2 => exact hnd1.elim
            | sym c1 =>
              obtain ⟨hd2, hs2, hsl2, hwf2⟩ := hwf1
              have htf : tryFrac c (d' ++ renderToks (.sym c1 :: ts2)) = none := by
                have h0 := @tryFrac_none_no_slash c d' [] (c1 :: renderToks ts2) hd'
                  (by intro x hx; cases hx)
                  (by intro x hx; cases hx; exact hd2)
                  (by intro x hx; cases hx; exact ⟨hs2, hsl2⟩)
                simpa [renderToks, renderTok] using h0
              rw [htf]
              rw [subF_append_digits hd', subF_true_eq_false_of_head hhR1, hIH]
              rfl
            | slash =>
              cases ts2 with
              | nil =>
                have htf : tryFrac c (d' ++ renderToks [LTok.slash]) = none := by
                  have h0 := @tryFrac_none_after_slash c d' [] [] [] hd'
                    (by intro x hx; cases hx) (by intro x hx; cases hx)
                    (by intro x hx; cases hx)
                  simpa [renderToks, renderTok] using h0
                rw [htf]
                rw [subF_append_digits hd', subF_true_eq_false_of_head hhR1, hIH]
                rfl
              | cons t3 ts3 =>
                cases t3 with
                | digits d2 =>
                  obtain ⟨hd2ne, hd2all, hnd3, hwf3⟩ := hwf1
                  cases d2 with
                  | nil => exact absurd rfl hd2ne
                  | cons e d2t =>
                    have hr5 : ∀ x ∈ (renderToks ts3).head?, pyIsDigit x = false :=
                      renderToks_head_not_digit hnd3 hwf3
                    have hlen3 : ts3.length ≤ n := by
                      simp only [List.length_cons] at hlen1
                      omega
                    have htf : tryFrac c (d' ++ renderToks (.slash :: .digits (e :: d2t) :: ts3)) =
                        some (c :: d', e :: d2t, renderToks ts3) := by
                      have h0 := @tryFrac_success c d' [] [] (e :: d2t) (renderToks ts3) hd'
                        (by intro x hx; cases hx) (by intro x hx; cases hx)
                        (List.cons_ne_nil e d2t) hd2all hr5
                      simpa [renderToks, renderTok] using h0
                    rw [htf]
                    dsimp only
                    rw [subF_true_eq_false_of_head hr5, ih ts3 hlen3 hwf3]
                    rfl
                | slash =>
                  have htf : tryFrac c (d' ++ renderToks (.slash :: .slash :: ts3)) = none := by
                    have h0 := @tryFrac_none_after_slash c d' [] [] ('/' :: renderToks ts3) hd'
                      (by intro x hx; cases hx) (by intro x hx; cases hx)
                      (by intro x hx; cases hx; exact ⟨slash_not_digit, slash_not_space⟩)
                    simpa [renderToks, renderTok] using h0
                  rw [htf]
                  rw [subF_append_digits hd', subF_true_eq_false_of_head hhR1, hIH]
                  rfl
                | sym c2 =>
                  obtain ⟨hdc2, hsc2, hslc2, hwf3⟩ := hwf1
                  have htf : tryFrac c (d' ++ renderToks (.slash :: .sym c2 :: ts3)) = none := by
                    have h0 := @tryFrac_none_after_slash c d' [] [] (c2 :: renderToks ts3) hd'
                      (by intro x hx; cases hx) (by intro x hx; cases hx)
                      (by intro x hx; cases hx; exact ⟨hdc2, hsc2⟩)
                    simpa [renderToks, renderTok] using h0
                  rw [htf]
                  rw [subF_append_digits hd', subF_true_eq_false_of_head hhR1, hIH]
                  rfl
                | ws w2 =>
                  obtain ⟨hw2ne, hw2all, hnw3, hwf3⟩ := hwf1
                  cases w2 with
                  | nil => exact absurd rfl hw2ne
                  | cons b w2t =>
                    cases ts3 with
                    | nil =>
                      have htf : tryFrac c
                          (d' ++ renderToks [LTok.slash, LTok.ws (b :: w2t)]) = none := by
                        have h0 := @tryFrac_none_after_slash c d' [] (b :: w2t) [] hd'
                          (by intro x hx; cases hx) hw2all (by intro x hx; cases hx)
                        simpa [renderToks, renderTok] using h0
                      rw [htf]
                      rw [subF_append_digits hd', subF_true_eq_false_of_head hhR1, hIH]
                      rfl
                    | cons t4 ts4 =>
                      cases t4 with
                      | ws w3 => exact hnw3.elim
                      | digits d2 =>
                        obtain ⟨hd2ne, hd2all, hnd4, hwf4⟩ := hwf3
                        cases d2 with
                        | nil => exact absurd rfl hd2ne
                        | cons e d2t =>
                          have hr5 : ∀ x ∈ (renderToks ts4).head?, pyIsDigit x = false :=
                            renderToks_head_not_digit hnd4 hwf4
                          have hlen4 : ts4.length ≤ n := by
                            simp only [List.length_cons] at hlen1
                            omega
                          have htf : tryFrac c (d' ++
                              renderToks (.slash :: .ws (b :: w2t) :: .digits (e :: d2t) :: ts4)) =
                              some (c :: d', e :: d2t, renderToks ts4) := by
                            have h0 := @tryFrac_success c d' [] (b :: w2t) (e :: d2t)
                              (renderToks ts4) hd' (by intro x hx; cases hx) hw2all
                              (List.cons_ne_nil e d2t) hd2all hr5
                            simpa [renderToks, renderTok] using h0
                          rw [htf]
                          dsimp only
                          rw [subF_true_eq_false_of_head hr5, ih ts4 hlen4 hwf4]
                          rfl
                      | slash =>
                        have htf : tryFrac c (d' ++
                            renderToks (.slash :: .ws (b :: w2t) :: .slash :: ts4)) = none := by
                          have h0 := @tryFrac_none_after_slash c d' [] (b :: w2t)
                            ('/' :: renderToks ts4) hd' (by intro x hx; cases hx) hw2all
                            (by intro x hx; cases hx; exact ⟨slash_not_digit, slash_not_space⟩)
                          simpa [renderToks, renderTok] using h0
                        rw [htf]
                        rw [subF_append_digits hd', subF_true_eq_false_of_head hhR1, hIH]
                        rfl
                      | sym c3 =>
                        obtain ⟨hdc3, hsc3, hslc3, hwf4⟩ := hwf3
                        have htf : tryFrac c (d' ++
                            renderToks (.slash :: .ws (b :: w2t) :: .sym c3 :: ts4)) = none := by
                          have h0 := @tryFrac_none_after_slash c d' [] (b :: w2t)
                            (c3 :: renderToks ts4) hd' (by intro x hx; cases hx) hw2all
                            (by intro x hx; cases hx; exact ⟨hdc3, hsc3⟩)
                          simpa [renderToks, renderTok] using h0
                        rw [htf]
                        rw [subF_append_digits hd', subF_true_eq_false_of_head hhR1, hIH]
                        rfl
            | ws w =>
              obtain ⟨hwne, hwall, hnw2, hwf2⟩ := hwf1
              cases w with
              | nil => exact absurd rfl hwne
              | cons a wt =>
                cases ts2 with
                | nil =>
                  have htf : tryFrac c (d' ++ renderToks [LTok.ws (a :: wt)]) = none := by
                    have h0 := @tryFrac_none_no_slash c d' (a :: wt) [] hd' hwall
                      (by
                        intro x hx
                        cases hx
                        exact space_not_digit (hwall a (List.mem_cons_self a wt)))
                      (by intro x hx; cases hx)
                    simpa [renderToks, renderTok] using h0
                  rw [htf]
                  rw [subF_append_digits hd', subF_true_eq_false_of_head hhR1, hIH]
                  rfl
                | cons t3 ts3 =>
                  cases t3 with
                  | ws w3 => exact hnw2.elim
                  | digits d2 =>
                    obtain ⟨hd2ne, hd2all, hnd3, hwf3⟩ := hwf2
                    cases d2 with
                    | nil => exact absurd rfl hd2ne
                    | cons e d2t =>
                      have he : pyIsDigit e = true := hd2all e (List.mem_cons_self e d2t)
                      have htf : tryFrac c
                          (d' ++ renderToks (.ws (a :: wt) :: .digits (e :: d2t) :: ts3)) =
                          none := by
                        have h0 := @tryFrac_none_no_slash c d' (a :: wt)
                          ((e :: d2t) ++ renderToks ts3) hd' hwall
                          (by
                            intro x hx
                            cases hx
                            exact space_not_digit (hwall a (List.mem_cons_self a wt)))
                          (by
                            intro x hx
                            cases hx
                            exact ⟨digit_not_space he, digit_ne_slash he⟩)
                        simpa [renderToks, renderTok] using h0
                      rw [htf]
                      rw [subF_append_digits hd', subF_true_eq_false_of_head hhR1, hIH]
                      rfl
                  | sym c2 =>
                    obtain ⟨hdc2, hsc2, hslc2, hwf3⟩ := hwf2
                    have htf : tryFrac c
                        (d' ++ renderToks (.ws (a :: wt) :: .sym c2 :: ts3)) = none := by
                      have h0 := @tryFrac_none_no_slash c d' (a :: wt)
                        (c2 :: renderToks ts3) hd' hwall
                        (by
                          intro x hx
                          cases hx
                          exact space_not_digit (hwall a (List.mem_cons_self a wt)))
                        (by intro x hx; cases hx; exact ⟨hsc2, hslc2⟩)
                      simpa [renderToks, renderTok] using h0
                    rw [htf]
                    rw [subF_append_digits hd', subF_true_eq_false_of_head hhR1, hIH]
                    rfl
                  | slash =>
                    cases ts3 with
                    | nil =>
                      have htf : tryFrac c
                          (d' ++ renderToks [LTok.ws (a :: wt), LTok.slash]) = none := by
                        have h0 := @tryFrac_none_after_slash c d' (a :: wt) [] [] hd' hwall
                          (by intro x hx; cases hx) (by intro x hx; cases hx)
                        simpa [renderToks, renderTok] using h0
                      rw [htf]
                      rw [subF_append_digits hd', subF_true_eq_false_of_head hhR1, hIH]
                      rfl
                    | cons t4 ts4 =>
                      cases t4 with
                      | digits d2 =>
                        obtain ⟨hd2ne, hd2all, hnd4, hwf4⟩ := hwf2
                        cases d2 with
                        | nil => exact absurd rfl hd2ne
                        | cons e d2t =>
                          have hr5 : ∀ x ∈ (renderToks ts4).head?, pyIsDigit x = false :=
                            renderToks_head_not_digit hnd4 hwf4
                          have hlen4 : ts4.length ≤ n := by
                            simp only [List.length_cons] at hlen1
                            omega
                          have htf : tryFrac c (d' ++
                              renderToks (.ws (a :: wt) :: .slash :: .digits (e :: d2t) :: ts4)) =
                              some (c :: d', e :: d2t, renderToks ts4) := by
                            have h0 := @tryFrac_success c d' (a :: wt) [] (e :: d2t)
                              (renderToks ts4) hd' hwall (by intro x hx; cases hx)
                              (List.cons_ne_nil e d2t) hd2all hr5
                            simpa [renderToks, renderTok] using h0
                          rw [htf]
                          dsimp only
                          rw [subF_true_eq_false_of_head hr5, ih ts4 hlen4 hwf4]
                          rfl
                      | slash =>
                        have htf : tryFrac c (d' ++
                            renderToks (.ws (a :: wt) :: .slash :: .slash :: ts4)) = none := by
                          have h0 := @tryFrac_none_after_slash c d' (a :: wt) []
                            ('/' :: renderToks ts4) hd' hwall (by intro x hx; cases hx)
                            (by intro x hx; cases hx; exact ⟨slash_not_digit, slash_not_space⟩)
                          simpa [renderToks, renderTok] using h0
                        rw [htf]
                        rw [subF_append_digits hd', subF_true_eq_false_of_head hhR1, hIH]
                        rfl
                      | sym c3 =>
                        obtain ⟨hdc3, hsc3, hslc3, hwf4⟩ := hwf2
                        have htf : tryFrac c (d' ++
                            renderToks (.ws (a :: wt) :: .slash :: .sym c3 :: ts4)) = none := by
                          have h0 := @tryFrac_none_after_slash c d' (a :: wt) []
                            (c3 :: renderToks ts4) hd' hwall (by intro x hx; cases hx)
                            (by intro x hx; cases hx; exact ⟨hdc3, hsc3⟩)
                          simpa [renderToks, renderTok] using h0
                        rw [htf]
                        rw [subF_append_digits hd', subF_true_eq_false_of_head hhR1, hIH]
                        rfl
                      | ws w2 =>
                        obtain ⟨hw2ne, hw2all, hnw4, hwf4⟩ := hwf2
                        cases w2 with
                        | nil => exact absurd rfl hw2ne
                        | cons b w2t =>
                          cases ts4 with
                          | nil =>
                            have htf : tryFrac c (d' ++ renderToks
                                [LTok.ws (a :: wt), LTok.slash, LTok.ws (b :: w2t)]) =
                                none := by
                              have h0 := @tryFrac_none_after_slash c d' (a :: wt) (b :: w2t)
                                [] hd' hwall hw2all (by intro x hx; cases hx)
                              simpa [renderToks, renderTok] using h0
                            rw [htf]
                            rw [subF_append_digits hd', subF_true_eq_false_of_head hhR1, hIH]
                            rfl
                          | cons t5 ts5 =>
                            cases t5 with
                            | ws w4 => exact hnw4.elim
                            | digits d2 =>
                              obtain ⟨hd2ne, hd2all, hnd5, hwf5⟩ := hwf4
                              cases d2 with
                              | nil => exact absurd rfl hd2ne
                              | cons e d2t =>
                                have hr5 : ∀ x ∈ (renderToks ts5).head?,
                                    pyIsDigit x = false :=
                                  renderToks_head_not_digit hnd5 hwf5
                                have hlen5 : ts5.length ≤ n := by
                                  simp only [List.length_cons] at hlen1
                                  omega
                                have htf : tryFrac c (d' ++ renderToks (.ws (a :: wt) ::
                                    .slash :: .ws (b :: w2t) :: .digits (e :: d2t) :: ts5)) =
                                    some (c :: d', e :: d2t, renderToks ts5) := by
                                  have h0 := @tryFrac_success c d' (a :: wt) (b :: w2t)
                                    (e :: d2t) (renderToks ts5) hd' hwall hw2all
                                    (List.cons_ne_nil e d2t) hd2all hr5
                                  simpa [renderToks, renderTok] using h0
                                rw [htf]
                                dsimp only
                                rw [subF_true_eq_false_of_head hr5, ih ts5 hlen5 hwf5]
                                rfl
                            | slash =>
                              have htf : tryFrac c (d' ++ renderToks (.ws (a :: wt) ::
                                  .slash :: .ws (b :: w2t) :: .slash :: ts5)) = none := by
                                have h0 := @tryFrac_none_after_slash c d' (a :: wt)
                                  (b :: w2t) ('/' :: renderToks ts5) hd' hwall hw2all
                                  (by
                                    intro x hx
                                    cases hx
                                    exact ⟨slash_not_digit, slash_not_space⟩)
                                simpa [renderToks, renderTok] using h0
                              rw [htf]
                              rw [subF_append_digits hd',
                                subF_true_eq_false_of_head hhR1, hIH]
                              rfl
                            | sym c4 =>
                              obtain ⟨hdc4, hsc4, hslc4, hwf5⟩ := hwf4
                              have htf : tryFrac c (d' ++ renderToks (.ws (a :: wt) ::
                                  .slash :: .ws (b :: w2t) :: .sym c4 :: ts5)) = none := by
                                have h0 := @tryFrac_none_after_slash c d' (a :: wt)
                                  (b :: w2t) (c4 :: renderToks ts5) hd' hwall hw2all
                                  (by intro x hx; cases hx; exact ⟨hdc4, hsc4⟩)
                                simpa [renderToks, renderTok] using h0
                              rw [htf]
                              rw [subF_append_digits hd',
                                subF_true_eq_false_of_head hhR1, hIH]
                              rfl

/-- `C1`: For every input string, the label-text normalizer replaces
every maximal digit-run/digit-run pair separated by a literal slash
(where the left digit run is not preceded by another digit and the
right digit run is not followed by another digit) with the left digits,
a space, the Unicode fraction-slash glyph, a space, and the right
digits, collapsing any whitespace around the original slash, and leaves
all other characters unchanged (formalised as: `normalize_label_text`
agrees everywhere with the spec-side normalizer `normSpec`, which
tokenizes into maximal runs and rewrites exactly those pairs); in
particular "5/16" and "5 / 16" both map to "5 ⁄ 16",
"ID 5/16 OD 1/2" maps to "ID 5 ⁄ 16 OD 1 ⁄ 2", and "10-32" is
unchanged. -/
theorem C1_normalize_label_text_spec :
    (∀ s : String, normalize_label_text s = normSpec s) ∧
      normalize_label_text "5/16" = "5 ⁄ 16" ∧
      normalize_label_text "5 / 16" = "5 ⁄ 16" ∧
      normalize_label_text "ID 5/16 OD 1/2" = "ID 5 ⁄ 16 OD 1 ⁄ 2" ∧
      normalize_label_text "10-32" = "10-32" := by
  refine ⟨?_, by decide, by decide, by decide, by decide⟩
  intro s
  have h1 : renderToks (tokenize s.data) = s.data :=
    renderToks_tokenize s.data.length s.data (le_refl _)
  have h2 := subF_renderToks (tokenize s.data).length (tokenize s.data) (le_refl _)
    (tokenize_wf s.data.length s.data (le_refl _))
  rw [h1] at h2
  exact congrArg String.mk h2

/-- `C2`: For the bolt spec `M3 × 8`, socket head, hex drive, no flags
and no grade/material, the layout renderer produces exactly the label
text `{cullbolt(flipped,socket,hex)}{1|1}M3\n×8` and, with the default
`.step` extension, the filename `m3x8_socket_hex.step`. -/
theorem C2_bolt_m3x8_socket_hex :
    bolt_label ⟨"M3", "8", "socket", "hex", false, false, none⟩ =
      "\x7bcullbolt(flipped,socket,hex)\x7d\x7b1|1\x7dM3\n×8" ∧
    bolt_filename ⟨"M3", "8", "socket", "hex", false, false, none⟩ ".step" =
      "m3x8_socket_hex.step" :=
  ⟨by decide, by decide⟩

/-- `C6`: The filename sanitizer is idempotent. -/
theorem C6_safe_stem_idempotent :
    ∀ s : String, _safe_stem (_safe_stem s) = _safe_stem s := by
  intro s
  obtain ⟨hmem, hnou, hF3, hF4, hne⟩ := safeStemL_facts s.data
  exact congrArg String.mk (safeStemL_id hmem hnou hF3 hF4 hne)

/-- `C7`: The filename sanitizer always returns a nonempty string, and
sanitizing `""` or `"###"` returns the literal string `"label"`. -/
theorem C7_safe_stem_nonempty :
    (∀ s : String, 0 < (_safe_stem s).length) ∧
      _safe_stem "" = "label" ∧ _safe_stem "###" = "label" := by
  refine ⟨?_, by decide, by decide⟩
  intro s
  have hne : safeStemL s.data ≠ [] := (safeStemL_facts s.data).2.2.2.2
  show 0 < (⟨safeStemL s.data⟩ : String).length
  simpa [String.length] using List.length_pos.2 hne

/-- `C8`: The section path resolver maps kind "bolt" to
`{normalized_size}_bolts`, "nut" to `{normalized_size}_nuts`, "washer"
to `{normalized_size}_lockwashers`/`{normalized_size}_washers` by the
lock flag, and any other kind to `misc`; in particular `M3` bolts go to
`m3_bolts`, locked `M5` washers to `m5_lockwashers`, and `#4-40` bolts
to `4-40_bolts`. -/
theorem C8_default_section_dir :
    (∀ (base : List String) (size : String) (lock : Bool),
        default_section_dir base "bolt" size lock =
          base ++ [_norm_size_for_folder size ++ "_bolts"]) ∧
    (∀ (base : List String) (size : String) (lock : Bool),
        default_section_dir base "nut" size lock =
          base ++ [_norm_size_for_folder size ++ "_nuts"]) ∧
    (∀ (base : List String) (size : String),
        default_section_dir base "washer" size true =
          base ++ [_norm_size_for_folder size ++ "_lockwashers"]) ∧
    (∀ (base : List String) (size : String),
        default_section_dir base "washer" size false =
          base ++ [_norm_size_for_folder size ++ "_washers"]) ∧
    (∀ (base : List String) (kind size : String) (lock : Bool),
        kind ≠ "bolt" → kind ≠ "nut" → kind ≠ "washer" →
          default_section_dir base kind size lock = base ++ ["misc"]) ∧
    (∀ base : List String,
        default_section_dir base "bolt" "M3" false = base ++ ["m3_bolts"]) ∧
    (∀ base : List String,
        default_section_dir base "washer" "M5" true = base ++ ["m5_lockwashers"]) ∧
    (∀ base : List String,
        default_section_dir base "bolt" "#4-40" false = base ++ ["4-40_bolts"]) := by
  refine ⟨?_, ?_, ?_, ?_, ?_, ?_, ?_, ?_⟩
  · intro base size lock
    simp [default_section_dir]
  · intro base size lock
    simp [default_section_dir]
  · intro base size
    simp [default_section_dir]
  · intro base size
    simp [default_section_dir]
  · intro base kind size lock h1 h2 h3
    simp [default_section_dir, h1, h2, h3]
  · intro base
    simp only [default_section_dir, if_true, eq_self_iff_true]
    exact congrArg (fun x => base ++ [x])
      (by decide : _norm_size_for_folder "M3" ++ "_bolts" = "m3_bolts")
  · intro base
    simp only [default_section_dir]
    simp only [if_true, Bool.false_eq_true, if_false, eq_self_iff_true,
      String.reduceEq, ite_true, ite_false]
    exact congrArg (fun x => base ++ [x])
      (by decide : _norm_size_for_folder "M5" ++ "_lockwashers" = "m5_lockwashers")
  · intro base
    simp only [default_section_dir, if_true, eq_self_iff_true]
    exact congrArg (fun x => base ++ [x])
      (by decide : _norm_size_for_folder "#4-40" ++ "_bolts" = "4-40_bolts")

/-- Witness for `C8_default_section_dir` at concrete inputs, including
an unrecognized kind hitting the `misc` fallback. -/
theorem C8_default_section_dir_witness :
    default_section_dir ["out"] "gadget" "M3" false = ["out", "misc"] ∧
      default_section_dir ["out"] "bolt" "M3" false = ["out", "m3_bolts"] :=
  ⟨C8_default_section_dir.2.2.2.2.1 ["out"] "gadget" "M3" false
      (by decide) (by decide) (by decide),
    C8_default_section_dir.2.2.2.2.2.1 ["out"]⟩

/-- `C3` counterexample: the claim says the washer filename turns every
`.` in the raw extra into `p` (as the bolt length rule does), which at
extra `"t 0.5"` would give `m5_washer_t_0p5.step`; the code keeps the
`.` (it is in the sanitizer's allowed class) and produces
`m5_washer_t_0.5.step`. -/
theorem C3_washer_filename_dot_counterexample :
    washer_filename ⟨"M5", "t 0.5", false⟩ ".step" = "m5_washer_t_0.5.step" ∧
      (("m5_washer_t_0.5.step" : String) == "m5_washer_t_0p5.step") = false :=
  ⟨by decide, by decide⟩

/-- Every character of a sanitized stem is in the sanitizer's kept
class; in particular the fraction glyph never survives sanitization. -/
theorem safe_stem_no_glyph (s : String) : '⁄' ∉ (_safe_stem s).data := by
  intro hmem
  have h2 := (safeStemL_facts s.data).1 '⁄' hmem
  exact absurd h2 (by decide)

/-- `C3` amended: the washer label for `M5` with extra
`id 5/16 od 1/2 t 1/16` is exactly
`{<}{washer}{1|2}M5\nid 5 ⁄ 16 od 1 ⁄ 2 t 1 ⁄ 16`, while the washer
filename is built from the raw, non-normalized extra, lowercased and
sanitized — every slash (a disallowed character) becomes an
underscore, `.` is kept as itself (not turned into `p`), and the
fraction glyph never appears in a washer filename. -/
theorem C3_washer_label_and_filename :
    washer_label ⟨"M5", "id 5/16 od 1/2 t 1/16", false⟩ =
      "\x7b<\x7d\x7bwasher\x7d\x7b1|2\x7dM5\nid 5 ⁄ 16 od 1 ⁄ 2 t 1 ⁄ 16" ∧
    washer_filename ⟨"M5", "id 5/16 od 1/2 t 1/16", false⟩ ".step" =
      "m5_washer_id_5_16_od_1_2_t_1_16.step" ∧
    (∀ w : WasherSpec, ((washer_filename w ".step").data.contains '⁄') = false) ∧
    washer_filename ⟨"M5", "t 0.5", false⟩ ".step" = "m5_washer_t_0.5.step" := by
  refine ⟨by decide, by decide, ?_, by decide⟩
  intro w
  cases hc : (washer_filename w ".step").data.contains '⁄'
  · rfl
  · exfalso
    have hmem : '⁄' ∈ (washer_filename w ".step").data := List.elem_iff.1 hc
    simp only [washer_filename, String.data_append] at hmem
    rcases List.mem_append.1 hmem with hmem | hmem
    · exact safe_stem_no_glyph _ hmem
    · exact absurd hmem (by decide)

/-! Helper lemmas about the batch expander. -/

theorem expandItem_ok_length {out_dir : List String} {ext : String} {it : PyItem}
    {js : List Job} (h : expandItem out_dir ext it = .ok js) :
    js.length = itemCount it := by
  cases it with
  | bolts b =>
    simp only [expandItem] at h
    cases hlb : lookupBoltType b.bolt_type with
    | none =>
      rw [hlb] at h
      cases h
    | some pr =>
      obtain ⟨hs, dr⟩ := pr
      rw [hlb] at h
      injection h with h
      subst h
      simp [itemCount]
  | nuts nn =>
    simp only [expandItem] at h
    injection h with h
    subst h
    simp [itemCount]
  | washers ww =>
    simp only [expandItem] at h
    injection h with h
    subst h
    simp [itemCount]
  | other d =>
    simp only [expandItem] at h
    cases h

theorem expand_ok_length {out_dir : List String} {ext : String} :
    ∀ {items : List PyItem} {jobs : List Job},
      expand out_dir ext items = .ok jobs →
        jobs.length = (items.map itemCount).sum := by
  intro items
  induction items with
  | nil =>
    intro jobs h
    injection h with h
    subst h
    rfl
  | cons it rest ih =>
    intro jobs h
    rw [expand] at h
    cases hh : expandItem out_dir ext it with
    | error e =>
      rw [hh] at h
      cases h
    | ok js =>
      rw [hh] at h
      cases hr : expand out_dir ext rest with
      | error e =>
        rw [hr] at h
        cases h
      | ok js' =>
        rw [hr] at h
        injection h with h
        subst h
        simp only [List.length_append, List.map_cons, List.sum_cons]
        rw [expandItem_ok_length hh, ih hr]

theorem expand_append_ok {out_dir : List String} {ext : String} :
    ∀ {xs ys : List PyItem} {jx jy : List Job},
      expand out_dir ext xs = .ok jx → expand out_dir ext ys = .ok jy →
        expand out_dir ext (xs ++ ys) = .ok (jx ++ jy) := by
  intro xs
  induction xs with
  | nil =>
    intro ys jx jy hx hy
    injection hx with hx
    subst hx
    simpa using hy
  | cons it rest ih =>
    intro ys jx jy hx hy
    rw [expand] at hx
    cases hh : expandItem out_dir ext it with
    | error e =>
      rw [hh] at hx
      cases hx
    | ok js =>
      rw [hh] at hx
      cases hr : expand out_dir ext rest with
      | error e =>
        rw [hr] at hx
        cases hx
      | ok js' =>
        rw [hr] at hx
        injection hx with hx
        subst hx
        rw [List.cons_append, expand, hh, ih hr hy, List.append_assoc]

theorem expandItem_error_of_invalid {out_dir : List String} {ext : String}
    {it : PyItem} (h : invalidItem it) : ∃ e, expandItem out_dir ext it = .error e := by
  cases it with
  | bolts b =>
    refine ⟨"Unknown bolt_type: " ++ pyRepr b.bolt_type ++ ". Add it to BOLT_TYPES.", ?_⟩
    simp only [expandItem]
    rw [show lookupBoltType b.bolt_type = none from h]
  | nuts nn => cases h
  | washers ww => cases h
  | other d => exact ⟨"Unsupported item: " ++ d, rfl⟩

theorem expand_error_of_invalid {out_dir : List String} {ext : String} :
    ∀ {items : List PyItem}, (∃ it ∈ items, invalidItem it) →
      ∃ e, expand out_dir ext items = .error e := by
  intro items
  induction items with
  | nil =>
    intro h
    obtain ⟨it, hit, _⟩ := h
    cases hit
  | cons it rest ih =>
    intro h
    obtain ⟨x, hx, hinv⟩ := h
    rcases List.mem_cons.1 hx with rfl | hx
    · obtain ⟨e, he⟩ := @expandItem_error_of_invalid out_dir ext x hinv
      refine ⟨e, ?_⟩
      rw [expand, he]
    · obtain ⟨e, he⟩ := ih ⟨x, hx, hinv⟩
      cases hh : expandItem out_dir ext it with
      | error e' => exact ⟨e', by rw [expand, hh]⟩
      | ok js =>
        refine ⟨e, ?_⟩
        rw [expand, hh, he]

/-- `C4`: The batch expander preserves input-request order (expansion
of a concatenation is the concatenation of the expansions), within a
request follows the order of the varying dimension (a single `Bolts`
request yields exactly its lengths mapped in order, and a single
`Nuts`/`Washers` request yields exactly its extras mapped in order),
and the total job count is the sum over requests of `len(lengths)` for
Bolts and `len(extras)` for Nuts/Washers; in particular
`Bolts("socket_hex","M3",["8","10","12"])` expands to exactly those 3
jobs in order, with head style `socket` and drive `hex`. -/
theorem C4_expand_order_and_count :
    (∀ (out_dir : List String) (ext : String) (items : List PyItem) (jobs : List Job),
        expand out_dir ext items = .ok jobs →
          jobs.length = (items.map itemCount).sum) ∧
    (∀ (out_dir : List String) (ext : String) (xs ys : List PyItem) (jx jy : List Job),
        expand out_dir ext xs = .ok jx → expand out_dir ext ys = .ok jy →
          expand out_dir ext (xs ++ ys) = .ok (jx ++ jy)) ∧
    (∀ (out_dir : List String) (ext : String) (b : Bolts) (hs dr : String),
        lookupBoltType b.bolt_type = some (hs, dr) →
          expand out_dir ext [PyItem.bolts b] =
            .ok (b.lengths.map fun L => boltJob out_dir ext (boltSpecOf b hs dr L))) ∧
    (∀ (out_dir : List String) (ext : String) (n : Nuts),
        expand out_dir ext [PyItem.nuts n] =
          .ok (n.extras.map fun e => nutJob out_dir ext ⟨n.size, e⟩)) ∧
    (∀ (out_dir : List String) (ext : String) (w : Washers),
        expand out_dir ext [PyItem.washers w] =
          .ok (w.extras.map fun e => washerJob out_dir ext ⟨w.size, e, w.lock⟩)) ∧
    expand ["labels_out"] ".step"
        [PyItem.bolts ⟨"socket_hex", "M3", ["8", "10", "12"], false, false, none⟩] =
      .ok
        [("\x7bcullbolt(flipped,socket,hex)\x7d\x7b1|1\x7dM3\n×8",
          ["labels_out", "m3_bolts", "m3x8_socket_hex.step"]),
         ("\x7bcullbolt(flipped,socket,hex)\x7d\x7b1|1\x7dM3\n×10",
          ["labels_out", "m3_bolts", "m3x10_socket_hex.step"]),
         ("\x7bcullbolt(flipped,socket,hex)\x7d\x7b1|1\x7dM3\n×12",
          ["labels_out", "m3_bolts", "m3x12_socket_hex.step"])] := by
  refine ⟨?_, ?_, ?_, ?_, ?_, by decide⟩
  · intro out_dir ext items jobs h
    exact expand_ok_length h
  · intro out_dir ext xs ys jx jy hx hy
    exact expand_append_ok hx hy
  · intro out_dir ext b hs dr h
    simp [expand, expandItem, h]
  · intro out_dir ext n
    simp [expand, expandItem]
  · intro out_dir ext w
    simp [expand, expandItem]

/-- Witness for `C4_expand_order_and_count` at concrete inputs. -/
theorem C4_expand_order_and_count_witness :
    ((["\x7b<\x7d\x7bnut\x7d\x7b1|2\x7dM5\nNYLON"].map
        (fun lab => (lab, ["labels_out", "m5_nuts", "m5_nut_nylon.step"]))).length =
      ([PyItem.nuts ⟨"M5", ["NYLON"]⟩].map itemCount).sum) ∧
    expand ["labels_out"] ".step"
        ([PyItem.nuts ⟨"M5", ["NYLON"]⟩] ++
          [PyItem.bolts ⟨"socket_hex", "M3", ["8"], false, false, none⟩]) =
      .ok
        ([("\x7b<\x7d\x7bnut\x7d\x7b1|2\x7dM5\nNYLON",
            ["labels_out", "m5_nuts", "m5_nut_nylon.step"])] ++
          [("\x7bcullbolt(flipped,socket,hex)\x7d\x7b1|1\x7dM3\n×8",
            ["labels_out", "m3_bolts", "m3x8_socket_hex.step"])]) ∧
    expand ["labels_out"] ".step"
        [PyItem.bolts ⟨"socket_hex", "M3", ["8", "10", "12"], false, false, none⟩] =
      .ok ((["8", "10", "12"].map fun L => boltJob ["labels_out"] ".step"
        (boltSpecOf ⟨"socket_hex", "M3", ["8", "10", "12"], false, false, none⟩
          "socket" "hex" L))) ∧
    expand ["labels_out"] ".step" [PyItem.nuts ⟨"M5", ["NYLON", "ACORN"]⟩] =
      .ok (["NYLON", "ACORN"].map fun e => nutJob ["labels_out"] ".step" ⟨"M5", e⟩) ∧
    expand ["labels_out"] ".step" [PyItem.washers ⟨"M5", ["", "id 5/16"], true⟩] =
      .ok (["", "id 5/16"].map fun e =>
        washerJob ["labels_out"] ".step" ⟨"M5", e, true⟩) := by
  refine ⟨?_, ?_, ?_, ?_, ?_⟩
  · exact C4_expand_order_and_count.1 ["labels_out"] ".step"
      [PyItem.nuts ⟨"M5", ["NYLON"]⟩] _ (by decide)
  · exact C4_expand_order_and_count.2.1 ["labels_out"] ".step" _ _ _ _
      (by decide) (by decide)
  · exact C4_expand_order_and_count.2.2.1 ["labels_out"] ".step" _ "socket" "hex"
      (by decide)
  · exact C4_expand_order_and_count.2.2.2.1 ["labels_out"] ".step"
      ⟨"M5", ["NYLON", "ACORN"]⟩
  · exact C4_expand_order_and_count.2.2.2.2.1 ["labels_out"] ".step"
      ⟨"M5", ["", "id 5/16"], true⟩

/-- `C5`: A `Bolts` request whose `bolt_type` is not registered makes
the expander raise the configuration error naming the unrecognized
type, and the whole expansion returns no job at all. -/
theorem C5_unknown_bolt_type :
    ∀ (out_dir : List String) (ext : String) (b : Bolts) (rest : List PyItem),
      lookupBoltType b.bolt_type = none →
        expand out_dir ext (PyItem.bolts b :: rest) =
          .error ("Unknown bolt_type: " ++ pyRepr b.bolt_type ++
            ". Add it to BOLT_TYPES.") := by
  intro out_dir ext b rest h
  rw [expand]
  simp only [expandItem]
  rw [h]

/-- Witness for `C5_unknown_bolt_type` at `bolt_type = "no_such_type"`. -/
theorem C5_unknown_bolt_type_witness :
    expand ["labels_out"] ".step"
        [PyItem.bolts ⟨"no_such_type", "M3", ["8"], false, false, none⟩] =
      .error "Unknown bolt_type: 'no_such_type'. Add it to BOLT_TYPES." :=
  C5_unknown_bolt_type ["labels_out"] ".step"
    ⟨"no_such_type", "M3", ["8"], false, false, none⟩ [] (by decide)

/-- `C9`: A batch item outside the three recognized variants makes the
expander immediately raise the type error describing the offending
value. -/
theorem C9_unsupported_item :
    ∀ (out_dir : List String) (ext : String) (d : String) (rest : List PyItem),
      expand out_dir ext (PyItem.other d :: rest) =
        .error ("Unsupported item: " ++ d) := by
  intro out_dir ext d rest
  rw [expand]
  rfl

/-- `C10`: Expansion is all-or-nothing — any invalid item anywhere in
the input makes `expand` raise (returning no job list, discarding jobs
from earlier valid items) and `make` perform zero renderer
invocations. -/
theorem C10_all_or_nothing :
    ∀ (out_dir : List String) (ext : String) (items : List PyItem),
      (∃ it ∈ items, invalidItem it) →
        ∃ e, expand out_dir ext items = .error e ∧
          make out_dir ext items = .error e ∧
          rendersPerformed out_dir ext items = 0 := by
  intro out_dir ext items h
  obtain ⟨e, he⟩ := expand_error_of_invalid h
  refine ⟨e, he, ?_, ?_⟩
  · rw [make, he]
  · rw [rendersPerformed, make, he]

/-- Witness for `C10_all_or_nothing`: a batch with a valid `Nuts` item
followed by an unsupported value yields an error and zero renders. -/
theorem C10_all_or_nothing_witness :
    ∃ e, expand ["labels_out"] ".step"
          [PyItem.nuts ⟨"M5", [""]⟩, PyItem.other "boom"] = .error e ∧
        make ["labels_out"] ".step"
          [PyItem.nuts ⟨"M5", [""]⟩, PyItem.other "boom"] = .error e ∧
        rendersPerformed ["labels_out"] ".step"
          [PyItem.nuts ⟨"M5", [""]⟩, PyItem.other "boom"] = 0 :=
  C10_all_or_nothing ["labels_out"] ".step"
    [PyItem.nuts ⟨"M5", [""]⟩, PyItem.other "boom"]
    ⟨PyItem.other "boom", by decide, trivial⟩
